import Mathlib

/-!
A shallow embedding of the core of `libwyag.py` (a minimal git-like content
tracker), together with theorems checking the repository specification
against it.

Conventions of the embedding:
* Python `bytes` values are modelled as `List Nat` (one `Nat` per byte).
* Python `str` values are also modelled as `List Nat` (one `Nat` per code
  point); all strings manipulated by the embedded core are ASCII.
* Python file-system state (the object store, the ref files) is modelled as
  explicit association lists threaded through the functions.
* A Python function that can raise an exception is modelled with `Option`
  or `Except`; recursion that the source performs without a bound is
  modelled with an explicit fuel argument, `none` standing for a
  computation that raises or never returns.
-/

/-- Equality on `Except` results is decidable componentwise. -/
instance {ε α : Type} [DecidableEq ε] [DecidableEq α] : DecidableEq (Except ε α) := fun a b =>
  match a, b with
  | .error e1, .error e2 =>
    if h : e1 = e2 then .isTrue (by rw [h]) else .isFalse (fun hh => h (Except.error.inj hh))
  | .error _, .ok _ => .isFalse (fun hh => Except.noConfusion hh)
  | .ok _, .error _ => .isFalse (fun hh => Except.noConfusion hh)
  | .ok a1, .ok a2 =>
    if h : a1 = a2 then .isTrue (by rw [h]) else .isFalse (fun hh => h (Except.ok.inj hh))

namespace Wyag

/-- the Python `bytes.find(c, start)`: auxiliary scan returning the offset of
the first occurrence of `c`. -/
def bfindAux (c : Nat) : List Nat → Option Nat
  | [] => none
  | b :: t => if b = c then some 0 else (bfindAux c t).map (· + 1)

/-- the Python `bytes.find(c, start)`: first index `≥ start` holding byte `c`,
`-1` if there is none.  A negative `start` counts from the end of the
sequence, clamped at `0`, as in Python. -/
def pyfind (xs : List Nat) (c : Nat) (start : Int) : Int :=
  let s : Nat := if start < 0 then ((xs.length : Int) + start).toNat else start.toNat
  match bfindAux c (xs.drop s) with
  | some i => ((s + i : Nat) : Int)
  | none => -1

/-- Resolve a Python slice endpoint: negative values count from the end,
and the result is clamped into `[0, n]`. -/
def pyIdx (n : Nat) (i : Int) : Nat :=
  if i < 0 then ((n : Int) + i).toNat else min i.toNat n

/-- the Python `xs[a:b]` on bytes. -/
def pyslice (xs : List Nat) (a b : Int) : List Nat :=
  (xs.take (pyIdx xs.length b)).drop (pyIdx xs.length a)

/-- the Python `xs[a:]` on bytes. -/
def pysliceFrom (xs : List Nat) (a : Int) : List Nat :=
  pyslice xs a xs.length

/-- the Python `xs[i]` on bytes: a negative index counts from the end and an
out-of-range index raises (`none`). -/
def pyget (xs : List Nat) (i : Int) : Option Nat :=
  let j : Int := if i < 0 then (xs.length : Int) + i else i
  if j < 0 then none else xs.get? j.toNat

/-- the Python `s.startswith(pre)` (first argument is the candidate prefix). -/
def pyStartswith : List Nat → List Nat → Bool
  | [], _ => true
  | _ :: _, [] => false
  | a :: as, b :: bs => a = b && pyStartswith as bs

/-- Python whitespace (the characters stripped by `str.strip()`), restricted
to the ASCII range used by this program. -/
def isPySpace (c : Nat) : Bool :=
  c = 32 || c = 9 || c = 10 || c = 13 || c = 11 || c = 12

/-- the Python `s.strip()` for ASCII strings. -/
def pyStrip (s : List Nat) : List Nat :=
  ((s.dropWhile isPySpace).reverse.dropWhile isPySpace).reverse

/-- `int.from_bytes(bs, "big")`. -/
def fromBytesBE (bs : List Nat) : Nat :=
  bs.foldl (fun a b => 256 * a + b) 0

/-- `n.to_bytes(len, "big")` (defined for `n < 256 ^ len`; callers that can
overflow check the bound themselves, mirroring the Python `OverflowError`). -/
def toBytesBE : Nat → Nat → List Nat
  | 0, _ => []
  | l + 1, n => toBytesBE l (n / 256) ++ [n % 256]

/-- The code point of the lowercase hex digit for `d < 16`, as produced by
the Python `hex()`. -/
def hexDigitChar (d : Nat) : Nat :=
  if d < 10 then 48 + d else 87 + d

/-- Digit loop of the Python `hex(n)` (fuel-driven; `fuel ≥ n` suffices). -/
def pyhexCore : Nat → Nat → List Nat
  | 0, _ => []
  | fuel + 1, n => if n = 0 then [] else pyhexCore fuel (n / 16) ++ [hexDigitChar (n % 16)]

/-- the Python `hex(n)[2:]` for `n ≥ 0`: lowercase hex digits, no leading
zeros, `"0"` for zero. -/
def pyhex (n : Nat) : List Nat :=
  if n = 0 then [48] else pyhexCore n n

/-- the Python `hex(n)` for `n ≥ 0`, including the `"0x"` prefix. -/
def pyhexFull (n : Nat) : List Nat :=
  48 :: 120 :: pyhex n

/-- Value of one hex digit character (either case), `none` otherwise. -/
def hexDigitVal (c : Nat) : Option Nat :=
  if 48 ≤ c ∧ c ≤ 57 then some (c - 48)
  else if 97 ≤ c ∧ c ≤ 102 then some (c - 87)
  else if 65 ≤ c ∧ c ≤ 70 then some (c - 55)
  else none

/-- Accumulator loop for `int(s, 16)` over plain hex digits. -/
def hexStrToNatGo : List Nat → Nat → Option Nat
  | [], acc => some acc
  | c :: t, acc =>
    match hexDigitVal c with
    | some d => hexStrToNatGo t (16 * acc + d)
    | none => none

/-- the Python `int(s, 16)` restricted to the shapes this program produces:
a nonempty string of plain hex digits (the strings fed to it here come from
`hex()`, so there is never a sign, whitespace or an `0x` prefix). -/
def pyIntHex (s : List Nat) : Option Nat :=
  if s = [] then none else hexStrToNatGo s 0

/-- Value of one decimal digit character, `none` otherwise. -/
def decDigitVal (c : Nat) : Option Nat :=
  if 48 ≤ c ∧ c ≤ 57 then some (c - 48) else none

/-- Accumulator loop for decimal digit strings. -/
def decStrToNatGo : List Nat → Nat → Option Nat
  | [], acc => some acc
  | c :: t, acc =>
    match decDigitVal c with
    | some d => decStrToNatGo t (10 * acc + d)
    | none => none

/-- A nonempty string of plain decimal digits, `none` otherwise. -/
def decDigitsVal (s : List Nat) : Option Nat :=
  if s = [] then none else decStrToNatGo s 0

/-- Sign handling of the Python `int(t)` after stripping (underscore grouping,
which never occurs in the inputs of this program, is not modelled). -/
def pyIntStr (t : List Nat) : Option Int :=
  if t.take 1 = [45] then (decDigitsVal (t.drop 1)).map (fun n => -(n : Int))
  else if t.take 1 = [43] then (decDigitsVal (t.drop 1)).map (fun n => (n : Int))
  else (decDigitsVal t).map (fun n => (n : Int))

/-- the Python `int(bs.decode("ascii"))`: the decode raises on a byte `≥ 128`,
then `int` strips whitespace and parses an optionally signed decimal
number. -/
def pyInt (s : List Nat) : Option Int :=
  if s.any (fun c => 128 ≤ c) then none else pyIntStr (pyStrip s)

/-- Digit loop of the Python `str(n)` (fuel-driven; `fuel ≥ n` suffices). -/
def natReprCore : Nat → Nat → List Nat
  | 0, _ => []
  | fuel + 1, n => if n = 0 then [] else natReprCore fuel (n / 10) ++ [48 + n % 10]

/-- `str(n).encode()` for `n : Nat`. -/
def natRepr (n : Nat) : List Nat :=
  if n = 0 then [48] else natReprCore n n

end Wyag

namespace Wyag

/-- A value of the ordered kvlm mapping: either a single byte string or a
list of byte strings (a repeated key). -/
inductive KvlmVal where
  | scalar (v : List Nat)
  | vlist (vs : List (List Nat))
  deriving DecidableEq

/-- The `collections.OrderedDict` used by `kvlm_parse`/`kvlm_serialize`,
as an insertion-ordered association list. -/
abbrev Kvlm := List (List Nat × KvlmVal)

/-- `dct[k]` lookup (read side). -/
def kvGet (d : Kvlm) (k : List Nat) : Option KvlmVal :=
  (d.find? (fun p => p.1 = k)).map (fun p => p.2)

/-- `dct[k] = v`: replace in place if the key exists (keeping insertion
order), otherwise append at the end, as `OrderedDict` does. -/
def kvSet (d : Kvlm) (k : List Nat) (v : KvlmVal) : Kvlm :=
  match d with
  | [] => [(k, v)]
  | (k1, v1) :: t => if k1 = k then (k, v) :: t else (k1, v1) :: kvSet t k v

/-- The update block of `kvlm_parse`: accumulate a value under a possibly
repeated key. -/
def kvAddValue (d : Kvlm) (k : List Nat) (v : List Nat) : Kvlm :=
  match kvGet d k with
  | some (.vlist vs) => kvSet d k (.vlist (vs ++ [v]))
  | some (.scalar old) => kvSet d k (.vlist [old, v])
  | none => d ++ [(k, .scalar v)]

/-- The replace of the two-byte sequence NL SP by NL that unescapes
continuation lines (leftmost, non-overlapping, as the Python
`bytes.replace` is). -/
def stripContLines : List Nat → List Nat
  | [] => []
  | 10 :: 32 :: t => 10 :: stripContLines t
  | b :: t => b :: stripContLines t

/-- The replace of NL by NL SP that escapes embedded newlines for
serialization. -/
def escapeNl : List Nat → List Nat
  | [] => []
  | 10 :: t => 10 :: 32 :: escapeNl t
  | b :: t => b :: escapeNl t

/-- The inner `while True` loop of `kvlm_parse`: starting from position `e`,
repeatedly find the next `\n` and stop at the first one not followed by a
space.  `none` models an `IndexError` on `raw[end+1]` or divergence. -/
def kvlmFindEnd (raw : List Nat) : Nat → Int → Option Int
  | 0, _ => none
  | fuel + 1, e =>
    let e2 := pyfind raw 10 (e + 1)
    match pyget raw (e2 + 1) with
    | none => none
    | some b => if b ≠ 32 then some e2 else kvlmFindEnd raw fuel e2

/-- Recursive body of `kvlm_parse(raw, start, dct)`.  `none` models an
assertion failure, an index error, or nontermination. -/
def kvlmParseGo (raw : List Nat) : Nat → Int → Kvlm → Option Kvlm
  | 0, _, _ => none
  | fuel + 1, start, dct =>
    let spc := pyfind raw 32 start
    let nl := pyfind raw 10 start
    if spc < 0 ∨ nl < spc then
      -- base case: the assert that nl equals start, then the message
      -- assignment storing the remaining bytes under the empty key
      if nl = start then some (kvSet dct [] (.scalar (pysliceFrom raw (start + 1))))
      else none
    else
      let key := pyslice raw start spc
      match kvlmFindEnd raw (raw.length + 2) start with
      | none => none
      | some e =>
        let value := stripContLines (pyslice raw (spc + 1) e)
        kvlmParseGo raw fuel (e + 1) (kvAddValue dct key value)

/-- `kvlm_parse(raw)` of the source. -/
def kvlm_parse (raw : List Nat) : Option Kvlm :=
  kvlmParseGo raw (raw.length + 2) 0 []

/-- `if type(val) != list: val = [val]` of `kvlm_serialize`. -/
def kvlmValList : KvlmVal → List (List Nat)
  | .scalar v => [v]
  | .vlist vs => vs

/-- The `for k in kvlm.keys()` loop of `kvlm_serialize`, reproduced exactly
as written in the source: the message append and the `return` sit INSIDE
the loop body, so the function returns right after the first key that is
not the message key, and returns `None` (here `none`) when every key is the
message key. -/
def kvlmSerializeGo (dct : Kvlm) : List (List Nat × KvlmVal) → Option (List Nat)
  | [] => none
  | (k, val) :: rest =>
    if k = [] then kvlmSerializeGo dct rest
    else
      let lines := (kvlmValList val).foldl
        (fun acc v => acc ++ k ++ [32] ++ escapeNl v ++ [10]) []
      match kvGet dct [] with
      | some (.scalar msg) => some (lines ++ [10] ++ msg)
      | some (.vlist _) => none
      | none => none

/-- `kvlm_serialize(kvlm)` of the source (including its early return). -/
def kvlm_serialize (kvlm : Kvlm) : Option (List Nat) :=
  kvlmSerializeGo kvlm kvlm

end Wyag

namespace Wyag

/-- `GitTreeLeaf(mode, path, sha)`: `mode` and `path` are bytes, `sha` is
the hex string produced by `hex(int.from_bytes(...))[2:]`. -/
structure GitTreeLeaf where
  mode : List Nat
  path : List Nat
  sha : List Nat
  deriving DecidableEq

/-- `tree_parse_one(raw, start)`.  `none` models the failed
`assert(x-start == 5 or x-start == 6)`. -/
def tree_parse_one (raw : List Nat) (start : Int) : Option (Int × GitTreeLeaf) :=
  let x := pyfind raw 32 start
  if x - start = 5 ∨ x - start = 6 then
    let mode := pyslice raw start x
    let y := pyfind raw 0 x
    let path := pyslice raw (x + 1) y
    let sha := pyhex (fromBytesBE (pyslice raw (y + 1) (y + 20 + 1)))
    some (y + 20 + 1, ⟨mode, path, sha⟩)
  else none

/-- The `while pos < max` loop of `tree_parse` (fuel-driven; each entry
consumes at least one byte, so `raw.length + 1` fuel is enough for every
terminating run). -/
def treeParseGo (raw : List Nat) : Nat → Int → Option (List GitTreeLeaf)
  | 0, _ => none
  | fuel + 1, pos =>
    if pos < (raw.length : Int) then
      match tree_parse_one raw pos with
      | none => none
      | some (p2, leaf) => (treeParseGo raw fuel p2).map (fun l => leaf :: l)
    else some []

/-- `tree_parse(raw)` of the source. -/
def tree_parse (raw : List Nat) : Option (List GitTreeLeaf) :=
  treeParseGo raw (raw.length + 1) 0

/-- One iteration of `tree_serializer`: `int(i.sha, 16)` (raises on a
non-hex string) followed by `.to_bytes(20, "big")` (raises `OverflowError`
when the value needs more than 20 bytes). -/
def treeSerializeOne (leaf : GitTreeLeaf) : Option (List Nat) :=
  match pyIntHex leaf.sha with
  | none => none
  | some n =>
    if n < 256 ^ 20 then some (leaf.mode ++ [32] ++ leaf.path ++ [0] ++ toBytesBE 20 n)
    else none

/-- `tree_serializer(obj)` of the source, over the item list of the object. -/
def tree_serializer : List GitTreeLeaf → Option (List Nat)
  | [] => some []
  | leaf :: rest =>
    match treeSerializeOne leaf, tree_serializer rest with
    | some a, some b => some (a ++ b)
    | _, _ => none

/-- The closed variant type over the four object kinds.  `GitBlob` carries
`blobdata`, `GitCommit`/`GitTag` carry the kvlm mapping, `GitTree` carries
its parsed items. -/
inductive GitObject where
  | blob (blobdata : List Nat)
  | commit (kvlm : Kvlm)
  | tree (items : List GitTreeLeaf)
  | tag (kvlm : Kvlm)
  deriving DecidableEq

def blobFmt : List Nat := [98, 108, 111, 98]
def commitFmt : List Nat := [99, 111, 109, 109, 105, 116]
def treeFmt : List Nat := [116, 114, 101, 101]
def tagFmt : List Nat := [116, 97, 103]

/-- The `fmt` class attribute of each object class. -/
def fmtOf : GitObject → List Nat
  | .blob _ => blobFmt
  | .commit _ => commitFmt
  | .tree _ => treeFmt
  | .tag _ => tagFmt

/-- The `serialize` method of each object class.  `none` models a raised
exception inside `kvlm_serialize`/`tree_serializer`. -/
def object_serialize : GitObject → Option (List Nat)
  | .blob d => some d
  | .commit k => kvlm_serialize k
  | .tree items => tree_serializer items
  | .tag k => kvlm_serialize k

/-- Constructor dispatch on the type tag followed by the `deserialize` method of the class, exactly as `object_read` picks `c` and calls `c(repo, data)`
(and as `object_hash` does).  `none` covers both an unknown tag and an
exception inside that `deserialize` method. -/
def object_decode (fmt data : List Nat) : Option GitObject :=
  if fmt = commitFmt then (kvlm_parse data).map .commit
  else if fmt = treeFmt then (tree_parse data).map .tree
  else if fmt = tagFmt then (kvlm_parse data).map .tag
  else if fmt = blobFmt then some (.blob data)
  else none

/-- Failure kinds of `object_read` (the source raises plain `Exception`s;
these constructors name the distinct raise sites). -/
inductive ReadError where
  | valueError
  | corrupt
  | unsupportedType
  | codecFailure
  deriving DecidableEq

/-- `object_read` of the source, applied to the already-decompressed raw
bytes (file lookup and `zlib.decompress` are I/O collaborators outside the
embedded core): parse the `<type> SP <size> NUL <payload>` prefix, check
the declared size against the actual payload length (`corrupt` = the
"bad length" raise), then dispatch on the type tag (`unsupportedType` =
the "Unknown type" raise). -/
def object_read (raw : List Nat) : Except ReadError GitObject :=
  let x := pyfind raw 32 0
  let fmt := pyslice raw 0 x
  let y := pyfind raw 0 x
  match pyInt (pyslice raw x y) with
  | none => .error .valueError
  | some size =>
    if size ≠ (raw.length : Int) - y - 1 then .error .corrupt
    else if fmt = commitFmt ∨ fmt = treeFmt ∨ fmt = tagFmt ∨ fmt = blobFmt then
      match object_decode fmt (pysliceFrom raw (y + 1)) with
      | some o => .ok o
      | none => .error .codecFailure
    else .error .unsupportedType

/-- A flat file-system map: path (a code-point string) to file contents. -/
abbrev FileStore := List (List Nat × List Nat)

/-- Write a file: overwrite in place if the path exists, create otherwise. -/
def storeSet (s : FileStore) (k v : List Nat) : FileStore :=
  match s with
  | [] => [(k, v)]
  | (k1, v1) :: t => if k1 = k then (k, v) :: t else (k1, v1) :: storeSet t k v

/-- Read a file at a path, `none` when absent. -/
def storeGet (s : FileStore) (k : List Nat) : Option (List Nat) :=
  (s.find? (fun p => p.1 = k)).map (fun p => p.2)

/-- The header + payload bytes `object_write` hashes and compresses:
the type tag, one space byte, the decimal length, one NUL byte, then the
payload. -/
def writeResult (obj : GitObject) (data : List Nat) : List Nat :=
  fmtOf obj ++ [32] ++ natRepr data.length ++ [0] ++ data

/-- `object_write(obj, actually_write)` of the source.  The SHA-1 digest
(`hashlib.sha1(...).hexdigest()`) and `zlib.compress` are abstract library
primitives, passed in as functions `digest` and `compress`; the object
store is the explicit `FileStore` keyed by the hash string (the on-disk
2-character fan-out `sha[0:2]/sha[2:]` concatenates back to the full hash,
so the key is the hash itself).  Returns the hash together with the store
after the call; `none` models an exception raised while serializing. -/
def object_write (digest compress : List Nat → List Nat) (stor : FileStore)
    (obj : GitObject) (actually_write : Bool) : Option (List Nat × FileStore) :=
  match object_serialize obj with
  | none => none
  | some data =>
    let result := writeResult obj data
    let sha := digest result
    if actually_write then some (sha, storeSet stor sha (compress result))
    else some (sha, stor)

/-- `"ref: "`, the symbolic-reference marker. -/
def refMarker : List Nat := [114, 101, 102, 58, 32]

/-- `ref_resolve(repo, ref)` of the source: read the ref file, drop the
trailing newline (`fp.read()[:-1]`), follow a `"ref: "` pointer by
recursing, otherwise return the data.  The source recursion has no cycle
guard, so it is driven by fuel here: `none` stands for a missing file or a
recursion that never returns. -/
def ref_resolve (refs : FileStore) : Nat → List Nat → Option (List Nat)
  | 0, _ => none
  | fuel + 1, ref =>
    match storeGet refs ref with
    | none => none
    | some content =>
      let data := content.dropLast
      if pyStartswith refMarker data then ref_resolve refs fuel (data.drop 5)
      else some data

def PREFIX_LEN : Nat := 2

def headName : List Nat := [72, 69, 65, 68]

/-- `hashRE = ^[0-9A-Fa-f]{4,40}$` character class. -/
def isHexChar (c : Nat) : Bool :=
  (48 ≤ c && c ≤ 57) || (65 ≤ c && c ≤ 70) || (97 ≤ c && c ≤ 102)

/-- `hashRE.match(name)`. -/
def hashREMatch (s : List Nat) : Bool :=
  4 ≤ s.length && s.length ≤ 40 && s.all isHexChar

/-- ASCII `str.lower()`. -/
def lowerChar (c : Nat) : Nat :=
  if 65 ≤ c ∧ c ≤ 90 then c + 32 else c

def pyLower (s : List Nat) : List Nat := s.map lowerChar

/-- `object_resolve(repo, name)` of the source.  The hash namespace of the
repository is modelled as `store`, the list of full 40-character hashes
whose objects exist on disk; `os.listdir` of the bucket `objects/<p>`
yields, in store order, the 38-character remainders of the hashes starting
with `p` (the directory exists iff some stored hash has that prefix).
`.ok none` is the Python None result (blank name), `.ok (some l)` is a
returned candidate list, and `.error ()` propagates an exception or a
nonterminating `ref_resolve` out of the `"HEAD"` branch. -/
def object_resolve (refs : FileStore) (store : List (List Nat)) (name : List Nat) :
    Except Unit (Option (List (List Nat))) :=
  if pyStrip name = [] then .ok none
  else if name = headName then
    match ref_resolve refs (refs.length + 1) headName with
    | some h => .ok (some [h])
    | none => .error ()
  else if hashREMatch name then
    if name.length = 40 then .ok (some [pyLower name])
    else
      let nm := pyLower name
      let pfx := nm.take PREFIX_LEN
      let rem := nm.drop PREFIX_LEN
      if store.any (fun h => decide (h.take PREFIX_LEN = pfx)) then
        .ok (some ((((store.filter (fun h => decide (h.take PREFIX_LEN = pfx))).map
          (fun h => h.drop PREFIX_LEN)).filter
            (fun f => pyStartswith rem f)).map (fun f => pfx ++ f)))
      else .ok (some [])
  else .ok (some [])

/-- Failure kinds of `object_find` (the source raises plain `Exception`s
with messages; these constructors name the raise sites).  `outOfFuel`
models a `while True` loop that never returns. -/
inductive FindError where
  | resolveFailure
  | nameNotFound (name : List Nat)
  | ambiguousName (name : List Nat) (cands : List (List Nat))
  | readFailure
  | keyFailure
  | outOfFuel
  deriving DecidableEq

/-- `bytes.decode("ascii")`: identity on code points `< 128`, raises
otherwise. -/
def bytesDecodeAscii (b : List Nat) : Option (List Nat) :=
  if b.any (fun c => 128 ≤ c) then none else some b

/-- The `while True` follow loop of `object_find`: read the object at
`sha`; if its type matches the requested `fmt` return the sha; if `follow`
is off return `None` silently; follow the `object` field of a tag, or the
`tree` field of a commit when a tree was requested; on any other mismatch
return `None` silently.  `objects` maps a hash to the object `object_read`
yields for it (`none` = the read raises). -/
def objectFindLoop (objects : List Nat → Option GitObject) (fmt : List Nat)
    (follow : Bool) : Nat → List Nat → Except FindError (Option (List Nat))
  | 0, _ => .error .outOfFuel
  | fuel + 1, sha =>
    match objects sha with
    | none => .error .readFailure
    | some obj =>
      if fmtOf obj = fmt then .ok (some sha)
      else if !follow then .ok none
      else
        match obj with
        | .tag k =>
          match kvGet k [111, 98, 106, 101, 99, 116] with
          | some (.scalar v) =>
            match bytesDecodeAscii v with
            | some s => objectFindLoop objects fmt follow fuel s
            | none => .error .keyFailure
          | some (.vlist _) => .error .keyFailure
          | none => .error .keyFailure
        | .commit k =>
          if fmt = treeFmt then
            match kvGet k [116, 114, 101, 101] with
            | some (.scalar v) =>
              match bytesDecodeAscii v with
              | some s => objectFindLoop objects fmt follow fuel s
              | none => .error .keyFailure
            | some (.vlist _) => .error .keyFailure
            | none => .error .keyFailure
          else .ok none
        | _ => .ok none

/-- `object_find(repo, name, fmt, follow)` of the source: resolve the name
to candidates; `if not sha` (Python `None` or the empty list) raise the
"Not such reference" error; more than one candidate raises the "Ambiguous
reference" error listing them; otherwise take the single candidate and,
when a format was requested, run the follow loop. -/
def object_find (refs : FileStore) (store : List (List Nat))
    (objects : List Nat → Option GitObject) (name : List Nat)
    (fmt : Option (List Nat)) (follow : Bool) (fuel : Nat) :
    Except FindError (Option (List Nat)) :=
  match object_resolve refs store name with
  | .error _ => .error .resolveFailure
  | .ok none => .error (.nameNotFound name)
  | .ok (some shas) =>
    if shas = [] then .error (.nameNotFound name)
    else if shas.length > 1 then .error (.ambiguousName name shas)
    else
      match fmt with
      | none => .ok (some (shas.headD []))
      | some f => objectFindLoop objects f follow fuel (shas.headD [])

/-- One record of the index file, with exactly the fields
`GitIndex.__init__` fills in (each kept as the raw byte slice the source
stores; `mode_perms` and the flag fields are never set by this code and
are omitted). -/
structure GitIndexEntry where
  ctime : List Nat
  mtime : List Nat
  dev : List Nat
  ino : List Nat
  mode_type : List Nat
  uid : List Nat
  gid : List Nat
  fsize : List Nat
  object_hash : List Nat
  name : List Nat
  deriving DecidableEq

/-- The parsed index: raw signature bytes, the `hex(...)` version string
(code points, `0x` prefix included), and the entry list. -/
structure GitIndex where
  signature : List Nat
  version : List Nat
  entries : List GitIndexEntry
  deriving DecidableEq

/-- The `for i in range(0, nindex)` loop of `GitIndex.__init__`.  Note the
source performs no bounds checking anywhere: slices of an exhausted buffer
are simply empty, the NUL search yields `-1`, and the
resulting garbage entry is appended like any other. -/
def gitIndexEntriesGo (content : List Nat) : Nat → Nat → List GitIndexEntry
  | 0, _ => []
  | k + 1, idx =>
    let ctime := pyslice content idx (idx + 8)
    let mtime := pyslice content (idx + 8) (idx + 16)
    let dev := pyslice content (idx + 16) (idx + 20)
    let ino := pyslice content (idx + 20) (idx + 24)
    let mode := pyslice content (idx + 24) (idx + 28)
    let uid := pyslice content (idx + 28) (idx + 32)
    let gid := pyslice content (idx + 32) (idx + 36)
    let fsize := pyslice content (idx + 36) (idx + 40)
    let object_hash := pyslice content (idx + 40) (idx + 60)
    let null_idx := pyfind content 0 (idx + 62)
    let name := pyslice content (idx + 62) null_idx
    let idx2 := (null_idx + 1).toNat
    let idx3 := 8 * ((idx2 + 7) / 8)
    ⟨ctime, mtime, dev, ino, mode, uid, gid, fsize, object_hash, name⟩ ::
      gitIndexEntriesGo content k idx3

/-- `GitIndex.__init__` of the source, applied to the raw bytes of the
index file: split off the 12-byte header (signature bytes kept
uninspected, version exposed as the `hex(...)` string, big-endian entry
count), then decode that many records.  The source validates nothing and
raises nothing here. -/
def GitIndex.parse (raw : List Nat) : GitIndex :=
  let header := pyslice raw 0 12
  let signature := pyslice header 0 4
  let version := pyhexFull (fromBytesBE (pyslice header 4 8))
  let nindex := fromBytesBE (pyslice header 8 12)
  let content := pysliceFrom raw 12
  ⟨signature, version, gitIndexEntriesGo content nindex 0⟩

/-! Concrete test vectors used by the theorems below. -/

/-- `b"a 1\nb 2\n\nmsg"`: a kvlm text with two distinct header keys. -/
def kvlmTwoKeysRaw : List Nat := [97, 32, 49, 10, 98, 32, 50, 10, 10, 109, 115, 103]

/-- The mapping with keys a and b and the message, in insertion order. -/
def kvlmTwoKeysDict : Kvlm :=
  [([97], .scalar [49]), ([98], .scalar [50]), ([], .scalar [109, 115, 103])]

/-- The mapping with only key a and the message: what survives a
serialize + re-parse. -/
def kvlmTwoKeysReparsed : Kvlm := [([97], .scalar [49]), ([], .scalar [109, 115, 103])]

/-- A commit object carrying the two-key mapping. -/
def c2commit : GitObject := .commit kvlmTwoKeysDict

/-- A 20-byte raw hash beginning with a zero byte (`0x00aa00...00`). -/
def c3hash : List Nat := 0 :: 170 :: List.replicate 18 0

/-- `"refs/heads/main"` as code points. -/
def mainRefName : List Nat := [114, 101, 102, 115, 47, 104, 101, 97, 100, 115, 47, 109, 97, 105, 110]

/-- A 40-character hash string (`"a" * 40`). -/
def hash40 : List Nat := List.replicate 40 97

/-- Ref files for `HEAD -> refs/heads/main -> hash40` (each file ends in a
newline, which `ref_resolve` strips). -/
def chainRefs : FileStore :=
  [(headName, refMarker ++ mainRefName ++ [10]), (mainRefName, hash40 ++ [10])]

/-- A ref file that points back at itself. -/
def cycleRefs : FileStore := [(mainRefName, refMarker ++ mainRefName ++ [10])]

/-- Stored hash `"abc123" + "a" * 34`. -/
def c5hash1 : List Nat := [97, 98, 99, 49, 50, 51] ++ List.replicate 34 97

/-- Stored hash `"abc124" + "b" * 34`. -/
def c5hash2 : List Nat := [97, 98, 99, 49, 50, 52] ++ List.replicate 34 98

/-- The ambiguous 4-character prefix `"abc1"`. -/
def c5name4 : List Nat := [97, 98, 99, 49]

/-- The unique 6-character prefix `"abc123"`. -/
def c5name6 : List Nat := [97, 98, 99, 49, 50, 51]

/-- A repository whose only object is a blob stored at `hash40`. -/
def c6objects : List Nat → Option GitObject :=
  fun s => if s = hash40 then some (.blob [1]) else none

/-- One well-formed index record: 62 bytes of fixed fields, the 3-byte name
`"foo"`, a NUL terminator, and padding to the next multiple of 8 (72 bytes
in all). -/
def idxRecord : List Nat :=
  [0, 0, 0, 1, 0, 0, 0, 2] ++ [0, 0, 0, 3, 0, 0, 0, 4] ++ [0, 0, 0, 5] ++ [0, 0, 0, 6] ++
  [0, 0, 129, 164] ++ [0, 0, 3, 232] ++ [0, 0, 3, 233] ++ [0, 0, 0, 7] ++
  List.replicate 20 171 ++ [0, 3] ++ [102, 111, 111] ++ [0] ++ [0, 0, 0, 0, 0, 0]

/-- A well-formed index file: magic `"DIRC"`, version 2, count 1, one
record. -/
def idxWellFormed : List Nat := [68, 73, 82, 67] ++ [0, 0, 0, 2] ++ [0, 0, 0, 1] ++ idxRecord

/-- A truncated index file: the header claims `count = 2` but only one
record of bytes follows. -/
def idxTruncated : List Nat := [68, 73, 82, 67] ++ [0, 0, 0, 2] ++ [0, 0, 0, 2] ++ idxRecord

/-- A 12-byte header whose magic bytes are not `b"DIRC"` at all. -/
def idxBadMagic : List Nat := [1, 2, 3, 4] ++ [0, 0, 0, 2] ++ [0, 0, 0, 0]

/-- The entry the well-formed record decodes to. -/
def idxEntry1 : GitIndexEntry :=
  ⟨[0, 0, 0, 1, 0, 0, 0, 2], [0, 0, 0, 3, 0, 0, 0, 4], [0, 0, 0, 5], [0, 0, 0, 6],
   [0, 0, 129, 164], [0, 0, 3, 232], [0, 0, 3, 233], [0, 0, 0, 7],
   List.replicate 20 171, [102, 111, 111]⟩

/-- The garbage record decoded past the end of the buffer: every slice is
empty. -/
def idxEntryGarbage : GitIndexEntry := ⟨[], [], [], [], [], [], [], [], [], []⟩

/-- Byte encoding of one raw tree entry:
`mode SP name NUL rawhash`. -/
def rawEntryBytes (m p h : List Nat) : List Nat :=
  m ++ [32] ++ p ++ [0] ++ h

/-- Byte encoding of a whole tree payload: the flat concatenation of its
entries, each given as `(mode, name, rawhash)`. -/
def rawTreeBytes : List (List Nat × List Nat × List Nat) → List Nat
  | [] => []
  | (m, p, h) :: t => rawEntryBytes m p h ++ rawTreeBytes t

/-- Well-formedness of a raw tree entry: the mode is 5 or 6 bytes with no
space, the name has no NUL, and the hash is exactly 20 bytes. -/
def wfTreeEnt (e : List Nat × List Nat × List Nat) : Prop :=
  (e.1.length = 5 ∨ e.1.length = 6) ∧ 32 ∉ e.1 ∧ 0 ∉ e.2.1
    ∧ e.2.2.length = 20 ∧ ∀ b ∈ e.2.2, b < 256

instance : DecidablePred wfTreeEnt := fun e => by
  unfold wfTreeEnt
  exact inferInstance

/-- The `GitTreeLeaf` that parsing a raw entry produces: mode and name
verbatim, the hash as the (possibly shortened) hex string. -/
def leafOf (e : List Nat × List Nat × List Nat) : GitTreeLeaf :=
  ⟨e.1, e.2.1, pyhex (fromBytesBE e.2.2)⟩

/-- A one-entry tree whose raw hash starts with a zero byte. -/
def c10entries : List (List Nat × List Nat × List Nat) :=
  [([49, 48, 48, 54, 52, 52], [102], c3hash)]

end Wyag

namespace Wyag

/-! General lemmas about the Python-primitive models. -/

theorem bfindAux_append_cons (c : Nat) (a b : List Nat) (ha : c ∉ a) :
    bfindAux c (a ++ c :: b) = some a.length := by
  induction a with
  | nil => simp [bfindAux]
  | cons x t ih =>
    have hx : ¬x = c := fun h => ha (by simp [h])
    simp [bfindAux, hx, ih (fun h => ha (List.mem_cons_of_mem _ h))]

theorem pyfind_from (xs : List Nat) (s : Nat) (a b : List Nat) (c : Nat)
    (hdrop : xs.drop s = a ++ c :: b) (hca : c ∉ a) :
    pyfind xs c (s : Int) = ((s + a.length : Nat) : Int) := by
  simp only [pyfind]
  have hs : (if (s : Int) < 0 then ((xs.length : Int) + (s : Int)).toNat
      else (s : Int).toNat) = s := by
    rw [if_neg (by omega)]
    exact Int.toNat_natCast s
  rw [hs, hdrop, bfindAux_append_cons c a b hca]

theorem pyIdx_natCast (n m : Nat) (h : m ≤ n) : pyIdx n (m : Int) = m := by
  simp only [pyIdx]
  rw [if_neg (by omega), Int.toNat_natCast]
  omega

theorem pyslice_nat (xs : List Nat) (s k : Nat) (h : s + k ≤ xs.length) :
    pyslice xs (s : Int) ((s + k : Nat) : Int) = (xs.drop s).take k := by
  simp only [pyslice]
  rw [pyIdx_natCast _ _ h, pyIdx_natCast _ _ (by omega), List.drop_take]
  congr 1
  omega

theorem pysliceFrom_nat (xs : List Nat) (s : Nat) :
    pysliceFrom xs (s : Int) = xs.drop s := by
  simp only [pysliceFrom, pyslice]
  have hl : pyIdx xs.length ((xs.length : Nat) : Int) = xs.length :=
    pyIdx_natCast _ _ le_rfl
  rw [hl, List.take_length]
  simp only [pyIdx]
  rw [if_neg (by omega), Int.toNat_natCast]
  rcases le_or_lt s xs.length with h | h
  · rw [min_eq_left h]
  · rw [min_eq_right (le_of_lt h), List.drop_eq_nil_of_le le_rfl,
      List.drop_eq_nil_of_le (le_of_lt h)]

theorem pyStartswith_append (a b h : List Nat) :
    pyStartswith (a ++ b) h
      = (decide (h.take a.length = a) && pyStartswith b (h.drop a.length)) := by
  induction a generalizing h with
  | nil => simp [pyStartswith]
  | cons x t ih =>
    cases h with
    | nil => simp [pyStartswith]
    | cons y u =>
      simp only [List.cons_append, pyStartswith, List.take_succ_cons, List.drop_succ_cons, ih u]
      by_cases hxy : x = y
      · subst hxy
        simp [ih u]
      · simp [hxy]
        intro h1
        exact absurd h1.symm hxy

theorem storeGet_storeSet_same (s : FileStore) (k v : List Nat) :
    storeGet (storeSet s k v) k = some v := by
  induction s with
  | nil => simp [storeSet, storeGet, List.find?]
  | cons p t ih =>
    obtain ⟨k1, v1⟩ := p
    by_cases h : k1 = k
    · simp [storeSet, h, storeGet, List.find?]
    · simp only [storeSet, if_neg h]
      simpa [storeGet, List.find?, h] using ih

theorem storeGet_storeSet_ne (s : FileStore) (k v k2 : List Nat) (h : k2 ≠ k) :
    storeGet (storeSet s k v) k2 = storeGet s k2 := by
  have hne : ¬(k = k2) := fun hh => h hh.symm
  induction s with
  | nil => simp [storeSet, storeGet, List.find?, hne]
  | cons p t ih =>
    obtain ⟨k1, v1⟩ := p
    by_cases h1 : k1 = k
    · subst h1
      simp [storeSet, storeGet, List.find?, hne]
    · simp only [storeSet, if_neg h1]
      by_cases h2 : k1 = k2
      · simp [storeGet, List.find?, h2]
      · simpa [storeGet, List.find?, h2] using ih

theorem storeSet_storeSet (s : FileStore) (k v w : List Nat) :
    storeSet (storeSet s k v) k w = storeSet s k w := by
  induction s with
  | nil => simp [storeSet]
  | cons p t ih =>
    obtain ⟨k1, v1⟩ := p
    by_cases h : k1 = k
    · simp [storeSet, h]
    · simp [storeSet, h, ih]

theorem hexDigitVal_hexDigitChar : ∀ d < 16, hexDigitVal (hexDigitChar d) = some d := by
  decide

theorem hexStrToNatGo_append (xs : List Nat) (c : Nat) :
    ∀ acc, hexStrToNatGo (xs ++ [c]) acc
      = match hexStrToNatGo xs acc, hexDigitVal c with
        | some m, some d => some (16 * m + d)
        | _, _ => none := by
  induction xs with
  | nil =>
    intro acc
    simp only [List.nil_append, hexStrToNatGo]
    cases hexDigitVal c <;> simp [hexStrToNatGo]
  | cons x t ih =>
    intro acc
    simp only [List.cons_append, hexStrToNatGo]
    cases hexDigitVal x with
    | none => cases hexDigitVal c <;> simp
    | some d => exact ih _

theorem hexStrToNatGo_pyhexCore (fuel : Nat) :
    ∀ n acc, n ≤ fuel →
      hexStrToNatGo (pyhexCore fuel n) acc
        = some (acc * 16 ^ (pyhexCore fuel n).length + n) := by
  induction fuel with
  | zero =>
    intro n acc h
    have : n = 0 := by omega
    subst this
    simp [pyhexCore, hexStrToNatGo]
  | succ fuel ih =>
    intro n acc h
    by_cases hn : n = 0
    · subst hn
      simp [pyhexCore, hexStrToNatGo]
    · have hdiv : n / 16 ≤ fuel := by
        have h2 : n / 16 < n := Nat.div_lt_self (Nat.pos_of_ne_zero hn) (by omega)
        omega
      simp only [pyhexCore, if_neg hn]
      rw [hexStrToNatGo_append, ih (n / 16) acc hdiv,
        hexDigitVal_hexDigitChar (n % 16) (Nat.mod_lt _ (by omega))]
      have harith : 16 * (acc * 16 ^ (pyhexCore fuel (n / 16)).length + n / 16) + n % 16
          = acc * 16 ^ ((pyhexCore fuel (n / 16)).length + 1) + n := by
        calc 16 * (acc * 16 ^ (pyhexCore fuel (n / 16)).length + n / 16) + n % 16
            = acc * 16 ^ ((pyhexCore fuel (n / 16)).length + 1)
              + (16 * (n / 16) + n % 16) := by ring
          _ = acc * 16 ^ ((pyhexCore fuel (n / 16)).length + 1) + n := by
              rw [Nat.div_add_mod]
      simp [harith]

theorem pyIntHex_pyhex (n : Nat) : pyIntHex (pyhex n) = some n := by
  by_cases hn : n = 0
  · subst hn
    decide
  · obtain ⟨m, rfl⟩ : ∃ m, n = m + 1 := ⟨n - 1, by omega⟩
    have hne : pyhex (m + 1) ≠ [] := by
      simp [pyhex, pyhexCore]
    simp only [pyIntHex, if_neg hne]
    have := hexStrToNatGo_pyhexCore (m + 1) (m + 1) 0 le_rfl
    simpa [pyhex] using this

theorem decDigitVal_digit : ∀ r < 10, decDigitVal (48 + r) = some r := by
  decide

theorem decStrToNatGo_append (xs : List Nat) (c : Nat) :
    ∀ acc, decStrToNatGo (xs ++ [c]) acc
      = match decStrToNatGo xs acc, decDigitVal c with
        | some m, some d => some (10 * m + d)
        | _, _ => none := by
  induction xs with
  | nil =>
    intro acc
    simp only [List.nil_append, decStrToNatGo]
    cases decDigitVal c <;> simp [decStrToNatGo]
  | cons x t ih =>
    intro acc
    simp only [List.cons_append, decStrToNatGo]
    cases decDigitVal x with
    | none => cases decDigitVal c <;> simp
    | some d => exact ih _

theorem decStrToNatGo_natReprCore (fuel : Nat) :
    ∀ n acc, n ≤ fuel →
      decStrToNatGo (natReprCore fuel n) acc
        = some (acc * 10 ^ (natReprCore fuel n).length + n) := by
  induction fuel with
  | zero =>
    intro n acc h
    have : n = 0 := by omega
    subst this
    simp [natReprCore, decStrToNatGo]
  | succ fuel ih =>
    intro n acc h
    by_cases hn : n = 0
    · subst hn
      simp [natReprCore, decStrToNatGo]
    · have hdiv : n / 10 ≤ fuel := by
        have h2 : n / 10 < n := Nat.div_lt_self (Nat.pos_of_ne_zero hn) (by omega)
        omega
      simp only [natReprCore, if_neg hn]
      rw [decStrToNatGo_append, ih (n / 10) acc hdiv,
        decDigitVal_digit (n % 10) (Nat.mod_lt _ (by omega))]
      have harith : 10 * (acc * 10 ^ (natReprCore fuel (n / 10)).length + n / 10) + n % 10
          = acc * 10 ^ ((natReprCore fuel (n / 10)).length + 1) + n := by
        calc 10 * (acc * 10 ^ (natReprCore fuel (n / 10)).length + n / 10) + n % 10
            = acc * 10 ^ ((natReprCore fuel (n / 10)).length + 1)
              + (10 * (n / 10) + n % 10) := by ring
          _ = acc * 10 ^ ((natReprCore fuel (n / 10)).length + 1) + n := by
              rw [Nat.div_add_mod]
      simp [harith]

theorem natReprCore_digits (fuel : Nat) :
    ∀ n c, c ∈ natReprCore fuel n → 48 ≤ c ∧ c ≤ 57 := by
  induction fuel with
  | zero =>
    intro n c hc
    simp [natReprCore] at hc
  | succ fuel ih =>
    intro n c hc
    by_cases hn : n = 0
    · subst hn
      simp [natReprCore] at hc
    · simp only [natReprCore, if_neg hn, List.mem_append, List.mem_singleton] at hc
      rcases hc with hc | hc
      · exact ih _ _ hc
      · have := Nat.mod_lt n (show 0 < 10 by omega)
        omega

theorem natRepr_digits (n : Nat) : ∀ c ∈ natRepr n, 48 ≤ c ∧ c ≤ 57 := by
  intro c hc
  by_cases hn : n = 0
  · subst hn
    simp [natRepr] at hc
    omega
  · simp only [natRepr, if_neg hn] at hc
    exact natReprCore_digits n n c hc

theorem natRepr_ne_nil (n : Nat) : natRepr n ≠ [] := by
  by_cases hn : n = 0
  · subst hn
    simp [natRepr]
  · obtain ⟨m, rfl⟩ : ∃ m, n = m + 1 := ⟨n - 1, by omega⟩
    simp [natRepr, natReprCore]

theorem fromBytesBE_append_one (a : List Nat) (b : Nat) :
    fromBytesBE (a ++ [b]) = 256 * fromBytesBE a + b := by
  simp [fromBytesBE, List.foldl_append]

theorem fromBytesBE_lt (bs : List Nat) (h : ∀ b ∈ bs, b < 256) :
    fromBytesBE bs < 256 ^ bs.length := by
  induction bs using List.reverseRecOn with
  | nil => simp [fromBytesBE]
  | append_singleton a b ih =>
    rw [fromBytesBE_append_one]
    have ha : fromBytesBE a < 256 ^ a.length :=
      ih (fun x hx => h x (List.mem_append_left _ hx))
    have hb : b < 256 := h b (by simp)
    have : 256 * fromBytesBE a + b < 256 * (fromBytesBE a + 1) := by omega
    calc 256 * fromBytesBE a + b < 256 * (fromBytesBE a + 1) := this
      _ ≤ 256 * 256 ^ a.length := by
          have : fromBytesBE a + 1 ≤ 256 ^ a.length := ha
          exact Nat.mul_le_mul_left _ this
      _ = 256 ^ (a ++ [b]).length := by
          simp [List.length_append, pow_succ]
          ring

theorem toBytesBE_fromBytesBE (bs : List Nat) (h : ∀ b ∈ bs, b < 256) :
    toBytesBE bs.length (fromBytesBE bs) = bs := by
  induction bs using List.reverseRecOn with
  | nil => simp [toBytesBE, fromBytesBE]
  | append_singleton a b ih =>
    have hb : b < 256 := h b (by simp)
    have ha := ih (fun x hx => h x (List.mem_append_left _ hx))
    rw [fromBytesBE_append_one]
    have hlen : (a ++ [b]).length = a.length + 1 := by simp
    rw [hlen]
    simp only [toBytesBE]
    have hdiv : (256 * fromBytesBE a + b) / 256 = fromBytesBE a := by omega
    have hmod : (256 * fromBytesBE a + b) % 256 = b := by omega
    rw [hdiv, hmod, ha]

/-- C1: the kvlm round-trip law `parse(serialize(parse(x))) == parse(x)`
fails on the code.  On the well-formed input `b"a 1\nb 2\n\nmsg"` the
early return of the serializer (the message append and `return` sit inside the
key loop) emits only the first header key, so re-parsing loses the key
`b`: the serializer does NOT emit one line per value for every non-message
key. -/
theorem c1_kvlm_serializer_drops_second_key :
    kvlm_parse kvlmTwoKeysRaw = some kvlmTwoKeysDict
    ∧ kvlm_serialize kvlmTwoKeysDict = some [97, 32, 49, 10, 10, 109, 115, 103]
    ∧ kvlm_parse [97, 32, 49, 10, 10, 109, 115, 103] = some kvlmTwoKeysReparsed
    ∧ kvlmTwoKeysReparsed ≠ kvlmTwoKeysDict := by
  refine ⟨by decide, by decide, by decide, by decide⟩

/-- C2: `decode(type(o), encode(o)) == o` fails on the code for the Commit
variant: a commit whose header has two distinct keys encodes (via the buggy
`kvlm_serialize`) to bytes that decode to a commit missing the second key. -/
theorem c2_commit_decode_encode_not_identity :
    object_serialize c2commit = some [97, 32, 49, 10, 10, 109, 115, 103]
    ∧ object_decode (fmtOf c2commit) [97, 32, 49, 10, 10, 109, 115, 103]
        = some (.commit kvlmTwoKeysReparsed)
    ∧ GitObject.commit kvlmTwoKeysReparsed ≠ c2commit := by
  refine ⟨by decide, by decide, by decide⟩

/-- C3: on the 20-byte raw hash `0x00aa00...00`, the hex representation
computed by `tree_parse_one` (`hex(int.from_bytes(h, "big"))[2:]`) collapses
to 38 characters, not the 40 the claim requires; the conversion back through
`int(sha, 16).to_bytes(20, "big")` does recover the raw bytes exactly. -/
theorem c3_hex_of_leading_zero_hash_collapses :
    c3hash.length = 20
    ∧ tree_parse_one ([49, 48, 48, 54, 52, 52] ++ [32] ++ [102] ++ [0] ++ c3hash) 0
        = some (29, ⟨[49, 48, 48, 54, 52, 52], [102], pyhex (fromBytesBE c3hash)⟩)
    ∧ (pyhex (fromBytesBE c3hash)).length = 38
    ∧ (pyIntHex (pyhex (fromBytesBE c3hash))).map (toBytesBE 20) = some c3hash := by
  refine ⟨by decide, by decide, by decide, by decide⟩

/-- C4: resolving `HEAD` through the chain `HEAD -> refs/heads/main ->
hash` returns the hash, but on a ref file that points back at itself
`ref_resolve` never returns a value, whatever recursion budget it is given:
the source has no cycle guard and no `ReferenceCycle` failure — the
recursion simply never terminates. -/
theorem c4_ref_chain_resolves_and_cycle_never_returns :
    ref_resolve chainRefs 3 headName = some hash40
    ∧ ∀ fuel, ref_resolve cycleRefs fuel mainRefName = none := by
  refine ⟨by decide, ?_⟩
  intro fuel
  induction fuel with
  | zero => rfl
  | succ n ih =>
    exact (show ref_resolve cycleRefs (n + 1) mainRefName
      = ref_resolve cycleRefs n mainRefName from rfl).trans ih

/-- C6 counterexample: with a repository whose only object is a blob stored
at `hash40`, asking `object_find` for that name at target type `tree`
returns the silent absent result (`.ok none`) — it does not fail with any
error, contradicting the claim that every non-tag/non-commit type mismatch
fails with `NoSuchConversion`. -/
theorem c6_counterexample_type_mismatch_silent :
    object_find [] [] c6objects hash40 (some treeFmt) true 5 = .ok none := by
  decide

/-- C8 counterexample: on the index file whose header claims `count = 2`
but which carries only one record of bytes, parsing does not fail at all
(the source `GitIndex.__init__` contains no check and no raise): it
returns a second, garbage entry whose field slices are all empty. -/
theorem c8_counterexample_truncated_parse_succeeds :
    GitIndex.parse idxTruncated = ⟨[68, 73, 82, 67], pyhexFull 2, [idxEntry1, idxEntryGarbage]⟩ := by
  decide

/-- C8 amended: a well-formed header (magic `DIRC`, version 2, count 1)
followed by one well-formed record decodes to exactly one entry carrying
the raw field slices and the correctly decoded name; a header claiming
`count = 2` over one record of bytes does NOT fail with `TruncatedIndex`
but yields an extra garbage entry with empty fields; absent magic bytes
are NOT rejected with `BadSignature` — the signature is stored
uninspected. -/
theorem c8_amended_index_parse_total :
    GitIndex.parse idxWellFormed = ⟨[68, 73, 82, 67], pyhexFull 2, [idxEntry1]⟩
    ∧ GitIndex.parse idxTruncated
        = ⟨[68, 73, 82, 67], pyhexFull 2, [idxEntry1, idxEntryGarbage]⟩
    ∧ GitIndex.parse idxBadMagic = ⟨[1, 2, 3, 4], pyhexFull 2, []⟩ := by
  refine ⟨by decide, by decide, by decide⟩

/-- C9: `object_write` is idempotent.  Writing an object yields the header
digest as its hash together with the store extended at that hash; writing
the same object again into the resulting store yields the same hash and
leaves the store unchanged; the written bucket holds the compressed header
bytes; and every other bucket is untouched (nothing is deleted, duplicated
or corrupted). -/
theorem c9_object_write_idempotent (digest compress : List Nat → List Nat)
    (stor : FileStore) (obj : GitObject) (data sha blob : List Nat) (st1 : FileStore)
    (hd : object_serialize obj = some data)
    (hsha : sha = digest (writeResult obj data))
    (hblob : blob = compress (writeResult obj data))
    (hst : st1 = storeSet stor sha blob) :
    object_write digest compress stor obj true = some (sha, st1)
    ∧ object_write digest compress st1 obj true = some (sha, st1)
    ∧ storeGet st1 sha = some blob
    ∧ ∀ k, k ≠ sha → storeGet st1 k = storeGet stor k := by
  subst hsha hblob hst
  refine ⟨?_, ?_, ?_, ?_⟩
  · simp [object_write, hd]
  · simp [object_write, hd, storeSet_storeSet]
  · exact storeGet_storeSet_same _ _ _
  · intro k hk
    exact storeGet_storeSet_ne _ _ _ _ hk

/-- C9 witness: writing the blob `b"a"` twice into an empty store, with a
constant digest function and an identity compressor, yields the same hash
both times and the same one-bucket store. -/
theorem c9_object_write_idempotent_witness :
    object_write (fun _ => [104]) (fun x => x) [] (.blob [97]) true
        = some ([104], [([104], writeResult (.blob [97]) [97])])
    ∧ object_write (fun _ => [104]) (fun x => x)
        [([104], writeResult (.blob [97]) [97])] (.blob [97]) true
        = some ([104], [([104], writeResult (.blob [97]) [97])]) := by
  have h := c9_object_write_idempotent (fun _ => [104]) (fun x => x) [] (.blob [97])
    [97] [104] (writeResult (.blob [97]) [97]) [([104], writeResult (.blob [97]) [97])]
    rfl rfl rfl rfl
  exact ⟨h.1, h.2.1⟩

/-! Lemmas describing `object_resolve` on hex-prefix names. -/

theorem dropWhile_no_space (l : List Nat) (h : ∀ c ∈ l, isPySpace c = false) :
    l.dropWhile isPySpace = l := by
  cases l with
  | nil => rfl
  | cons x t => simp [List.dropWhile_cons, h x (by simp)]

theorem pyStrip_no_space (l : List Nat) (h : ∀ c ∈ l, isPySpace c = false) :
    pyStrip l = l := by
  unfold pyStrip
  rw [dropWhile_no_space l h,
    dropWhile_no_space l.reverse (fun c hc => h c (List.mem_reverse.mp hc)),
    List.reverse_reverse]

theorem hex_not_space (c : Nat) (h : isHexChar c = true) : isPySpace c = false := by
  simp only [isHexChar, Bool.or_eq_true, Bool.and_eq_true, decide_eq_true_eq] at h
  simp only [isPySpace, Bool.or_eq_false_iff, decide_eq_false_iff_not]
  omega

theorem pyStartswith_take_drop (nm h : List Nat) (h2 : 2 ≤ nm.length) :
    pyStartswith nm h
      = (decide (h.take PREFIX_LEN = nm.take PREFIX_LEN)
          && pyStartswith (nm.drop PREFIX_LEN) (h.drop PREFIX_LEN)) := by
  have hsplit : nm.take PREFIX_LEN ++ nm.drop PREFIX_LEN = nm := List.take_append_drop _ _
  have hlen : (nm.take PREFIX_LEN).length = PREFIX_LEN := by
    rw [List.length_take]
    simp only [PREFIX_LEN]
    omega
  calc pyStartswith nm h
      = pyStartswith (nm.take PREFIX_LEN ++ nm.drop PREFIX_LEN) h := by rw [hsplit]
    _ = (decide (h.take (nm.take PREFIX_LEN).length = nm.take PREFIX_LEN)
          && pyStartswith (nm.drop PREFIX_LEN) (h.drop (nm.take PREFIX_LEN).length)) :=
        pyStartswith_append _ _ _
    _ = _ := by rw [hlen]

theorem resolve_candidates (store : List (List Nat)) (nm : List Nat) (h2 : 2 ≤ nm.length) :
    (((store.filter (fun h => decide (h.take PREFIX_LEN = nm.take PREFIX_LEN))).map
        (fun h => h.drop PREFIX_LEN)).filter
          (fun f => pyStartswith (nm.drop PREFIX_LEN) f)).map
      (fun f => nm.take PREFIX_LEN ++ f)
      = store.filter (fun h => pyStartswith nm h) := by
  induction store with
  | nil => rfl
  | cons h t ih =>
    have key := pyStartswith_take_drop nm h h2
    by_cases hp : h.take PREFIX_LEN = nm.take PREFIX_LEN
    · by_cases hq : pyStartswith (nm.drop PREFIX_LEN) (h.drop PREFIX_LEN) = true
      · have hh : nm.take PREFIX_LEN ++ h.drop PREFIX_LEN = h := by
          rw [← hp]
          exact List.take_append_drop _ _
        simp [List.filter_cons, hp, hq, key, hh, ih]
      · simp [List.filter_cons, hp, hq, key, ih]
    · simp [List.filter_cons, hp, key, ih]

theorem object_resolve_hex (refs : FileStore) (store : List (List Nat)) (name : List Nat)
    (h4 : 4 ≤ name.length) (hlt : name.length < 40) (hall : name.all isHexChar = true) :
    object_resolve refs store name
      = .ok (some (store.filter (fun h => pyStartswith (pyLower name) h))) := by
  have hall2 : ∀ c ∈ name, isHexChar c = true := by
    simpa [List.all_eq_true] using hall
  have hstrip : pyStrip name = name :=
    pyStrip_no_space name (fun c hc => hex_not_space c (hall2 c hc))
  have hne : ¬(pyStrip name = []) := by
    rw [hstrip]
    intro h
    rw [h] at h4
    simp at h4
  have hhead : ¬(name = headName) := by
    intro h
    subst h
    have h72 : isHexChar 72 = true := hall2 72 (by decide)
    exact absurd h72 (by decide)
  have hmatch : hashREMatch name = true := by
    simp only [hashREMatch, Bool.and_eq_true, decide_eq_true_eq]
    exact ⟨⟨h4, by omega⟩, hall⟩
  have hlen : ¬(name.length = 40) := by omega
  have hnm2 : 2 ≤ (pyLower name).length := by
    simp only [pyLower, List.length_map]
    omega
  simp only [object_resolve, if_neg hne, if_neg hhead, if_pos hmatch, if_neg hlen]
  by_cases hany : store.any (fun h => decide (h.take PREFIX_LEN = (pyLower name).take PREFIX_LEN)) = true
  · rw [if_pos hany, resolve_candidates store (pyLower name) hnm2]
  · rw [if_neg hany]
    have hmem : ∀ h ∈ store, ¬(h.take PREFIX_LEN = (pyLower name).take PREFIX_LEN) := by
      intro h hh hc
      exact hany (List.any_eq_true.mpr ⟨h, hh, by simp [hc]⟩)
    have hfil : store.filter (fun h => pyStartswith (pyLower name) h) = [] := by
      rw [List.filter_eq_nil_iff]
      intro h hh
      rw [pyStartswith_take_drop (pyLower name) h hnm2]
      simp only [Bool.and_eq_true, decide_eq_true_eq, not_and]
      intro hc
      exact absurd hc (hmem h hh)
    rw [hfil]

/-- C5: `object_find` requires exactly one candidate.  For any hex name of
4 to 39 characters, the candidate set `object_resolve` computes is exactly
the stored hashes extending the lowercased name; when it has two or more
elements `object_find` fails with the ambiguous-reference error listing
the candidates, when it is empty `object_find` fails with the
no-such-reference error, and when it is a single hash the name resolves to
exactly that hash. -/
theorem c5_object_find_requires_unique (refs : FileStore) (store : List (List Nat))
    (objects : List Nat → Option GitObject) (follow : Bool) (fuel : Nat) (name : List Nat)
    (h4 : 4 ≤ name.length) (hlt : name.length < 40) (hall : name.all isHexChar = true) :
    (∀ fmt, 2 ≤ (store.filter (fun h => pyStartswith (pyLower name) h)).length →
      object_find refs store objects name fmt follow fuel
        = .error (.ambiguousName name (store.filter (fun h => pyStartswith (pyLower name) h))))
    ∧ (∀ fmt, store.filter (fun h => pyStartswith (pyLower name) h) = [] →
      object_find refs store objects name fmt follow fuel = .error (.nameNotFound name))
    ∧ (∀ h, store.filter (fun h2 => pyStartswith (pyLower name) h2) = [h] →
      object_find refs store objects name none follow fuel = .ok (some h)) := by
  have hres := object_resolve_hex refs store name h4 hlt hall
  refine ⟨?_, ?_, ?_⟩
  · intro fmt hge
    have hnil : ¬(store.filter (fun h => pyStartswith (pyLower name) h) = []) := by
      intro h
      rw [h] at hge
      simp at hge
    simp only [object_find, hres, if_neg hnil]
    rw [if_pos
      (show (store.filter (fun h => pyStartswith (pyLower name) h)).length > 1 by omega)]
  · intro fmt hnil
    simp only [object_find, hres, hnil]
    simp
  · intro h hone
    simp only [object_find, hres, hone]
    norm_num

/-- C5 witness: with stored hashes `"abc123" + "a"*34` and
`"abc124" + "b"*34`, the 4-character prefix `"abc1"` is ambiguous with both
as candidates, and the unique 6-character prefix `"abc123"` resolves to
exactly the first hash. -/
theorem c5_object_find_requires_unique_witness :
    (4 ≤ c5name4.length ∧ c5name4.length < 40 ∧ c5name4.all isHexChar = true)
    ∧ object_find [] [c5hash1, c5hash2] (fun _ => none) c5name4 none true 5
        = .error (.ambiguousName c5name4 [c5hash1, c5hash2])
    ∧ object_find [] [c5hash1, c5hash2] (fun _ => none) c5name6 none true 5
        = .ok (some c5hash1) := by
  have hfil4 : ([c5hash1, c5hash2].filter (fun h => pyStartswith (pyLower c5name4) h))
      = [c5hash1, c5hash2] := by decide
  have hfil6 : ([c5hash1, c5hash2].filter (fun h2 => pyStartswith (pyLower c5name6) h2))
      = [c5hash1] := by decide
  refine ⟨by decide, ?_, ?_⟩
  · have h := (c5_object_find_requires_unique [] [c5hash1, c5hash2] (fun _ => none) true 5
      c5name4 (by decide) (by decide) (by decide)).1 none (by rw [hfil4]; decide)
    rw [hfil4] at h
    exact h
  · exact (c5_object_find_requires_unique [] [c5hash1, c5hash2] (fun _ => none) true 5
      c5name6 (by decide) (by decide) (by decide)).2.2 c5hash1 hfil6

/-! Lemmas for the `<type> SP <size> NUL <payload>` header of stored
objects. -/

theorem decDigitsVal_natRepr (n : Nat) : decDigitsVal (natRepr n) = some n := by
  by_cases hn : n = 0
  · subst hn
    decide
  · obtain ⟨m, rfl⟩ : ∃ m, n = m + 1 := ⟨n - 1, by omega⟩
    have hne : natRepr (m + 1) ≠ [] := natRepr_ne_nil _
    simp only [decDigitsVal, if_neg hne]
    have h := decStrToNatGo_natReprCore (m + 1) (m + 1) 0 le_rfl
    simpa [natRepr] using h

theorem pyInt_space_natRepr (n : Nat) : pyInt (32 :: natRepr n) = some (n : Int) := by
  have hdig := natRepr_digits n
  have hns : ∀ c ∈ natRepr n, isPySpace c = false := by
    intro c hc
    have := hdig c hc
    simp only [isPySpace, Bool.or_eq_false_iff, decide_eq_false_iff_not]
    omega
  have hany : ((32 :: natRepr n).any (fun c => decide (128 ≤ c))) = false := by
    rw [List.any_eq_false]
    intro c hc
    rcases List.mem_cons.mp hc with rfl | hmem
    · simp
    · have := hdig c hmem
      simp only [decide_eq_true_eq]
      omega
  have hstrip : pyStrip (32 :: natRepr n) = natRepr n := by
    unfold pyStrip
    have h1 : (32 :: natRepr n).dropWhile isPySpace = natRepr n := by
      rw [List.dropWhile_cons, if_pos (by decide)]
      exact dropWhile_no_space _ hns
    rw [h1, dropWhile_no_space _ (fun c hc => hns c (List.mem_reverse.mp hc)),
      List.reverse_reverse]
  simp only [pyInt, hany, Bool.false_eq_true, if_false, hstrip]
  obtain ⟨c, rest, hcr⟩ : ∃ c rest, natRepr n = c :: rest := by
    cases h : natRepr n with
    | nil => exact absurd h (natRepr_ne_nil n)
    | cons a b => exact ⟨a, b, rfl⟩
  have hc : 48 ≤ c ∧ c ≤ 57 := natRepr_digits n c (by rw [hcr]; simp)
  rw [hcr]
  have ht1 : (c :: rest).take 1 = [c] := by simp
  simp only [pyIntStr, ht1]
  rw [if_neg (by intro h; injection h; omega), if_neg (by intro h; injection h; omega)]
  rw [← hcr, decDigitsVal_natRepr]
  rfl

/-- C7: on decompressed bytes of the shape
`t ++ SP ++ str(n) ++ NUL ++ p` (any type tag `t` without an embedded
space), `object_read` fails with the bad-length (`CorruptObject`) error
exactly when the declared size `n` differs from the payload length; when
the size is right and the tag is one of the four known tags it decodes the
payload with the codec of that tag; and when the size is right but the tag is
unknown it fails with the unknown-type (`UnsupportedType`) error. -/
theorem c7_object_read_validates (t p : List Nat) (n : Nat) (ht : 32 ∉ t) :
    (n ≠ p.length →
      object_read (t ++ [32] ++ natRepr n ++ [0] ++ p) = .error .corrupt)
    ∧ (n = p.length → (t = commitFmt ∨ t = treeFmt ∨ t = tagFmt ∨ t = blobFmt) →
      object_read (t ++ [32] ++ natRepr n ++ [0] ++ p)
        = match object_decode t p with
          | some o => .ok o
          | none => .error .codecFailure)
    ∧ (n = p.length → ¬(t = commitFmt ∨ t = treeFmt ∨ t = tagFmt ∨ t = blobFmt) →
      object_read (t ++ [32] ++ natRepr n ++ [0] ++ p) = .error .unsupportedType) := by
  have hdig := natRepr_digits n
  have hlenraw : (t ++ [32] ++ natRepr n ++ [0] ++ p).length
      = t.length + 1 + (natRepr n).length + 1 + p.length := by
    simp only [List.length_append, List.length_cons, List.length_nil]
  have hx : pyfind (t ++ [32] ++ natRepr n ++ [0] ++ p) 32 0 = (t.length : Int) := by
    have h0 : (t ++ [32] ++ natRepr n ++ [0] ++ p).drop 0
        = t ++ 32 :: (natRepr n ++ [0] ++ p) := by
      simp [List.append_assoc]
    have h := pyfind_from (t ++ [32] ++ natRepr n ++ [0] ++ p) 0 t
      (natRepr n ++ [0] ++ p) 32 h0 ht
    simpa using h
  have hdr : (t ++ [32] ++ natRepr n ++ [0] ++ p).drop t.length
      = (32 :: natRepr n) ++ 0 :: p := by
    rw [show t ++ [32] ++ natRepr n ++ [0] ++ p
        = t ++ ((32 :: natRepr n) ++ 0 :: p) from by simp [List.append_assoc]]
    exact List.drop_left _ _
  have hfmt : pyslice (t ++ [32] ++ natRepr n ++ [0] ++ p) 0 (t.length : Int) = t := by
    have hb : 0 + t.length ≤ (t ++ [32] ++ natRepr n ++ [0] ++ p).length := by
      rw [hlenraw]
      omega
    have h := pyslice_nat (t ++ [32] ++ natRepr n ++ [0] ++ p) 0 t.length hb
    have h2 : ((t ++ [32] ++ natRepr n ++ [0] ++ p).drop 0).take t.length = t := by
      rw [List.drop_zero,
        show t ++ [32] ++ natRepr n ++ [0] ++ p
          = t ++ ([32] ++ natRepr n ++ [0] ++ p) from by simp [List.append_assoc]]
      exact List.take_left _ _
    rw [h2] at h
    simpa using h
  have hnotin : (0 : Nat) ∉ 32 :: natRepr n := by
    intro hmem
    rcases List.mem_cons.mp hmem with h32 | hmem2
    · exact absurd h32 (by omega)
    · have := hdig 0 hmem2
      omega
  have hy : pyfind (t ++ [32] ++ natRepr n ++ [0] ++ p) 0 (t.length : Int)
      = ((t.length + (1 + (natRepr n).length) : Nat) : Int) := by
    have h := pyfind_from (t ++ [32] ++ natRepr n ++ [0] ++ p) t.length
      (32 :: natRepr n) p 0 hdr hnotin
    have hl : (32 :: natRepr n).length = 1 + (natRepr n).length := by
      simp only [List.length_cons]
      omega
    rw [hl] at h
    exact h
  have hsz : pyslice (t ++ [32] ++ natRepr n ++ [0] ++ p) (t.length : Int)
      ((t.length + (1 + (natRepr n).length) : Nat) : Int) = 32 :: natRepr n := by
    have hb : t.length + (1 + (natRepr n).length)
        ≤ (t ++ [32] ++ natRepr n ++ [0] ++ p).length := by
      rw [hlenraw]
      omega
    have h := pyslice_nat (t ++ [32] ++ natRepr n ++ [0] ++ p) t.length
      (1 + (natRepr n).length) hb
    rw [hdr] at h
    rw [h, show 1 + (natRepr n).length = (32 :: natRepr n).length from by
      simp only [List.length_cons]; omega, List.take_left]
  have hlen2 : ((t ++ [32] ++ natRepr n ++ [0] ++ p).length : Int)
      - ((t.length + (1 + (natRepr n).length) : Nat) : Int) - 1 = (p.length : Int) := by
    rw [hlenraw]
    push_cast
    ring
  have hps : pysliceFrom (t ++ [32] ++ natRepr n ++ [0] ++ p)
      (((t.length + (1 + (natRepr n).length) : Nat) : Int) + 1) = p := by
    have hcast : (((t.length + (1 + (natRepr n).length) : Nat) : Int) + 1)
        = ((t.length + (1 + (natRepr n).length) + 1 : Nat) : Int) := by
      push_cast
      ring
    rw [hcast, pysliceFrom_nat]
    rw [show t ++ [32] ++ natRepr n ++ [0] ++ p
        = (t ++ [32] ++ natRepr n ++ [0]) ++ p from by simp [List.append_assoc],
      show t.length + (1 + (natRepr n).length) + 1
        = (t ++ [32] ++ natRepr n ++ [0]).length from by
        simp only [List.length_append, List.length_cons, List.length_nil]
        omega]
    exact List.drop_left _ _
  refine ⟨?_, ?_, ?_⟩
  · intro hne
    simp only [object_read, hx, hfmt, hy, hsz, pyInt_space_natRepr, hlen2]
    rw [if_pos (by exact_mod_cast hne)]
  · intro heq hk
    simp only [object_read, hx, hfmt, hy, hsz, pyInt_space_natRepr, hlen2]
    rw [if_neg (by simp [heq]), if_pos hk, hps]
  · intro heq hk
    simp only [object_read, hx, hfmt, hy, hsz, pyInt_space_natRepr, hlen2]
    rw [if_neg (by simp [heq]), if_neg hk]

/-- C7 witness: a blob header with the right length decodes; an unknown
tag `"xy"` with the right length is rejected as unsupported; a blob header
declaring length 3 over a 2-byte payload is rejected as corrupt. -/
theorem c7_object_read_validates_witness :
    (32 ∉ blobFmt)
    ∧ object_read (blobFmt ++ [32] ++ natRepr 2 ++ [0] ++ [97, 98]) = .ok (.blob [97, 98])
    ∧ object_read ([120, 121] ++ [32] ++ natRepr 2 ++ [0] ++ [97, 98])
        = .error .unsupportedType
    ∧ object_read (blobFmt ++ [32] ++ natRepr 3 ++ [0] ++ [97, 98]) = .error .corrupt := by
  refine ⟨by decide, ?_, ?_, ?_⟩
  · have h := (c7_object_read_validates blobFmt [97, 98] 2 (by decide)).2.1 rfl
      (by decide)
    exact h.trans (by decide)
  · exact (c7_object_read_validates [120, 121] [97, 98] 2 (by decide)).2.2 rfl (by decide)
  · exact (c7_object_read_validates blobFmt [97, 98] 3 (by decide)).1 (by decide)

/-- The resolution of a full 40-character lowercase hex name: a single
candidate, the name itself, without consulting the store. -/
theorem object_resolve_full_hash (refs : FileStore) (store : List (List Nat))
    (name : List Nat) (h40 : name.length = 40) (hall : name.all isHexChar = true) :
    object_resolve refs store name = .ok (some [pyLower name]) := by
  have hall2 : ∀ c ∈ name, isHexChar c = true := by
    simpa [List.all_eq_true] using hall
  have hstrip : pyStrip name = name :=
    pyStrip_no_space name (fun c hc => hex_not_space c (hall2 c hc))
  have hne : ¬(pyStrip name = []) := by
    rw [hstrip]
    intro h
    rw [h] at h40
    simp at h40
  have hhead : ¬(name = headName) := by
    intro h
    subst h
    have h72 : isHexChar 72 = true := hall2 72 (by decide)
    exact absurd h72 (by decide)
  have hmatch : hashREMatch name = true := by
    simp only [hashREMatch, Bool.and_eq_true, decide_eq_true_eq]
    exact ⟨⟨by omega, by omega⟩, hall⟩
  simp only [object_resolve, if_neg hne, if_neg hhead, if_pos hmatch, if_pos h40]

/-- C6 amended: the type coercion of `object_find` follows exactly two
indirection rules — a tag is followed through its `object` header field
(whenever the requested type is not `tag`), and a commit is followed
through its `tree` header field when the requested type is `tree` — and on
EVERY other type mismatch it returns the silent absent result (Python
`None`), not a `NoSuchConversion` failure (the source has no such raise). -/
theorem c6_object_find_follow_rules (refs : FileStore) (store : List (List Nat))
    (objects : List Nat → Option GitObject) (name f : List Nat) (fuel : Nat)
    (obj : GitObject) (k : Kvlm) (sha v : List Nat) :
    (name.length = 40 → name.all isHexChar = true → pyLower name = name →
      objects name = some obj → fmtOf obj ≠ f → fmtOf obj ≠ tagFmt →
      (fmtOf obj = commitFmt → f ≠ treeFmt) →
      object_find refs store objects name (some f) true (fuel + 1) = .ok none)
    ∧ (objects sha = some (.tag k) → tagFmt ≠ f →
      kvGet k [111, 98, 106, 101, 99, 116] = some (.scalar v) →
      bytesDecodeAscii v = some v →
      objectFindLoop objects f true (fuel + 1) sha = objectFindLoop objects f true fuel v)
    ∧ (objects sha = some (.commit k) →
      kvGet k [116, 114, 101, 101] = some (.scalar v) →
      bytesDecodeAscii v = some v →
      objectFindLoop objects treeFmt true (fuel + 1) sha
        = objectFindLoop objects treeFmt true fuel v) := by
  refine ⟨?_, ?_, ?_⟩
  · intro h40 hall hlow hobj hne htag hcom
    have hres := object_resolve_full_hash refs store name h40 hall
    rw [hlow] at hres
    have hnil : ¬([name] = ([] : List (List Nat))) := by simp
    simp only [object_find, hres, if_neg hnil,
      if_neg (show ¬([name].length > 1) by simp)]
    simp only [List.headD, objectFindLoop, hobj, if_neg hne]
    cases obj with
    | blob d => rfl
    | tree items => rfl
    | tag k2 => exact absurd rfl htag
    | commit k2 =>
      simp only [Bool.not_true, Bool.false_eq_true, if_false]
      rw [if_neg (hcom rfl)]
  · intro hobj hne hget hdec
    have hne2 : ¬(fmtOf (GitObject.tag k) = f) := by
      simpa [fmtOf] using hne
    simp only [objectFindLoop, hobj, if_neg hne2, hget, hdec]
    rfl
  · intro hobj hget hdec
    have hne2 : ¬(fmtOf (GitObject.commit k) = treeFmt) := by
      show ¬(commitFmt = treeFmt)
      decide
    simp only [objectFindLoop, hobj, if_neg hne2, hget, hdec]
    rfl

/-- C6 amended witness: the concrete blob-at-`hash40` repository, asked to
resolve that hash at target type `tree`, returns the silent absent result. -/
theorem c6_object_find_follow_rules_witness :
    object_find [] [] c6objects hash40 (some treeFmt) true 5 = .ok none := by
  exact (c6_object_find_follow_rules [] [] c6objects hash40 treeFmt 4
    (.blob [1]) [] [] []).1 (by decide) (by decide) (by decide) (by decide)
    (by decide) (by decide) (by decide)

/-! Lemmas for the tree-entry codec round trip. -/

theorem rawEntryBytes_length (m p h : List Nat) :
    (rawEntryBytes m p h).length = m.length + p.length + h.length + 2 := by
  simp only [rawEntryBytes, List.length_append, List.length_cons, List.length_nil]
  omega

theorem tree_parse_one_at (A m p h B : List Nat)
    (hm : m.length = 5 ∨ m.length = 6) (hm32 : 32 ∉ m) (hp0 : (0 : Nat) ∉ p)
    (hh : h.length = 20) :
    tree_parse_one (A ++ rawEntryBytes m p h ++ B) (A.length : Int)
      = some (((A.length + (rawEntryBytes m p h).length : Nat) : Int),
          ⟨m, p, pyhex (fromBytesBE h)⟩) := by
  have hassoc : A ++ rawEntryBytes m p h ++ B = A ++ (rawEntryBytes m p h ++ B) :=
    List.append_assoc _ _ _
  have hlenraw : (A ++ rawEntryBytes m p h ++ B).length
      = A.length + (m.length + p.length + h.length + 2) + B.length := by
    simp only [List.length_append, rawEntryBytes_length]
  have hdropA : (A ++ rawEntryBytes m p h ++ B).drop A.length
      = m ++ 32 :: (p ++ 0 :: (h ++ B)) := by
    rw [hassoc, List.drop_left]
    simp [rawEntryBytes, List.append_assoc]
  have hx : pyfind (A ++ rawEntryBytes m p h ++ B) 32 (A.length : Int)
      = ((A.length + m.length : Nat) : Int) :=
    pyfind_from _ A.length m (p ++ 0 :: (h ++ B)) 32 hdropA hm32
  have hcond : ((A.length + m.length : Nat) : Int) - (A.length : Int) = 5
      ∨ ((A.length + m.length : Nat) : Int) - (A.length : Int) = 6 := by
    rcases hm with h5 | h6
    · left
      push_cast
      omega
    · right
      push_cast
      omega
  have hmode : pyslice (A ++ rawEntryBytes m p h ++ B) (A.length : Int)
      ((A.length + m.length : Nat) : Int) = m := by
    have hb : A.length + m.length ≤ (A ++ rawEntryBytes m p h ++ B).length := by
      rw [hlenraw]
      omega
    rw [pyslice_nat _ _ _ hb, hdropA,
      show m ++ 32 :: (p ++ 0 :: (h ++ B)) = m ++ (32 :: (p ++ 0 :: (h ++ B))) from rfl,
      List.take_left]
  have hdrop2 : (A ++ rawEntryBytes m p h ++ B).drop (A.length + m.length)
      = (32 :: p) ++ 0 :: (h ++ B) := by
    rw [← List.drop_drop, hdropA,
      show m ++ 32 :: (p ++ 0 :: (h ++ B)) = m ++ (32 :: (p ++ 0 :: (h ++ B))) from rfl,
      List.drop_left]
    simp
  have hnotin : (0 : Nat) ∉ 32 :: p := by
    intro hmem
    rcases List.mem_cons.mp hmem with h32 | hmem2
    · exact absurd h32 (by omega)
    · exact hp0 hmem2
  have hy : pyfind (A ++ rawEntryBytes m p h ++ B) 0 ((A.length + m.length : Nat) : Int)
      = ((A.length + m.length + (p.length + 1) : Nat) : Int) := by
    have h := pyfind_from _ (A.length + m.length) (32 :: p) (h ++ B) 0 hdrop2 hnotin
    have hl : (32 :: p).length = p.length + 1 := by simp
    rw [hl] at h
    rw [h]
  have hdrop3 : (A ++ rawEntryBytes m p h ++ B).drop (A.length + m.length + 1)
      = p ++ 0 :: (h ++ B) := by
    rw [← List.drop_drop, hdrop2]
    simp
  have hpath : pyslice (A ++ rawEntryBytes m p h ++ B)
      (((A.length + m.length : Nat) : Int) + 1)
      ((A.length + m.length + (p.length + 1) : Nat) : Int) = p := by
    have hcast : (((A.length + m.length : Nat) : Int) + 1)
        = ((A.length + m.length + 1 : Nat) : Int) := by push_cast; ring
    have hcast2 : ((A.length + m.length + (p.length + 1) : Nat) : Int)
        = ((A.length + m.length + 1 + p.length : Nat) : Int) := by push_cast; ring
    have hb : A.length + m.length + 1 + p.length
        ≤ (A ++ rawEntryBytes m p h ++ B).length := by
      rw [hlenraw]
      omega
    rw [hcast, hcast2, pyslice_nat _ _ _ hb, hdrop3,
      show p ++ 0 :: (h ++ B) = p ++ (0 :: (h ++ B)) from rfl, List.take_left]
  have hdrop4 : (A ++ rawEntryBytes m p h ++ B).drop (A.length + m.length + 1 + p.length + 1)
      = h ++ B := by
    have hidx : A.length + m.length + 1 + p.length + 1
        = A.length + m.length + 1 + (p.length + 1) := by omega
    rw [hidx, ← List.drop_drop, hdrop3,
      show p ++ 0 :: (h ++ B) = (p ++ [0]) ++ (h ++ B) from by simp,
      show p.length + 1 = (p ++ [0]).length from by simp, List.drop_left]
  have hsha : pyslice (A ++ rawEntryBytes m p h ++ B)
      (((A.length + m.length + (p.length + 1) : Nat) : Int) + 1)
      ((((A.length + m.length + (p.length + 1) : Nat) : Int) + 20) + 1) = h := by
    have hcast : (((A.length + m.length + (p.length + 1) : Nat) : Int) + 1)
        = ((A.length + m.length + 1 + p.length + 1 : Nat) : Int) := by push_cast; ring
    have hcast2 : ((((A.length + m.length + (p.length + 1) : Nat) : Int) + 20) + 1)
        = ((A.length + m.length + 1 + p.length + 1 + 20 : Nat) : Int) := by push_cast; ring
    have hb : A.length + m.length + 1 + p.length + 1 + 20
        ≤ (A ++ rawEntryBytes m p h ++ B).length := by
      rw [hlenraw]
      omega
    rw [hcast, hcast2, pyslice_nat _ _ _ hb, hdrop4, ← hh, List.take_left]
  simp only [tree_parse_one, hx]
  rw [if_pos hcond, hmode, hy, hpath, hsha]
  have hfst : (((A.length + m.length + (p.length + 1) : Nat) : Int) + 20) + 1
      = ((A.length + (rawEntryBytes m p h).length : Nat) : Int) := by
    rw [rawEntryBytes_length]
    push_cast
    omega
  rw [hfst]

theorem rawTreeBytes_length_ge :
    ∀ es : List (List Nat × List Nat × List Nat), es.length ≤ (rawTreeBytes es).length := by
  intro es
  induction es with
  | nil => simp [rawTreeBytes]
  | cons e t ih =>
    obtain ⟨m, p, h⟩ := e
    simp only [rawTreeBytes, List.length_append, List.length_cons, rawEntryBytes_length]
    omega

theorem treeParseGo_at :
    ∀ (es : List (List Nat × List Nat × List Nat)) (A : List Nat) (fuel : Nat),
      (∀ e ∈ es, wfTreeEnt e) → es.length < fuel →
      treeParseGo (A ++ rawTreeBytes es) fuel (A.length : Int) = some (es.map leafOf) := by
  intro es
  induction es with
  | nil =>
    intro A fuel _ hf
    obtain ⟨f, rfl⟩ : ∃ f, fuel = f + 1 := ⟨fuel - 1, by omega⟩
    simp only [rawTreeBytes, List.append_nil, treeParseGo]
    rw [if_neg (by omega)]
    simp
  | cons e t ih =>
    intro A fuel hwf hf
    obtain ⟨m, p, h⟩ := e
    obtain ⟨f, rfl⟩ : ∃ f, fuel = f + 1 := ⟨fuel - 1, by omega⟩
    obtain ⟨hm, hm32, hp0, hh, hb⟩ := hwf _ (List.mem_cons_self _ _)
    have hassoc : A ++ rawTreeBytes ((m, p, h) :: t)
        = A ++ rawEntryBytes m p h ++ rawTreeBytes t := by
      simp [rawTreeBytes, List.append_assoc]
    have hlt : (A.length : Int) < ((A ++ rawEntryBytes m p h ++ rawTreeBytes t).length : Int) := by
      simp only [List.length_append, rawEntryBytes_length]
      push_cast
      omega
    have hone := tree_parse_one_at A m p h (rawTreeBytes t) hm hm32 hp0 hh
    have hrec : treeParseGo (A ++ rawEntryBytes m p h ++ rawTreeBytes t) f
        ((A.length + (rawEntryBytes m p h).length : Nat) : Int) = some (t.map leafOf) := by
      have hlen : A.length + (rawEntryBytes m p h).length
          = (A ++ rawEntryBytes m p h).length := by
        simp
      rw [hlen]
      exact ih (A ++ rawEntryBytes m p h) f
        (fun e he => hwf e (List.mem_cons_of_mem _ he)) (by simp at hf; omega)
    rw [hassoc]
    simp only [treeParseGo]
    rw [if_pos hlt, hone]
    have hrec2 : treeParseGo (A ++ (rawEntryBytes m p h ++ rawTreeBytes t)) f
        ((A.length : Int) + ((rawEntryBytes m p h).length : Int))
        = some (List.map leafOf t) := by
      have hcast : (A.length : Int) + ((rawEntryBytes m p h).length : Int)
          = ((A.length + (rawEntryBytes m p h).length : Nat) : Int) := by
        push_cast
        ring
      rw [← List.append_assoc, hcast]
      exact hrec
    simp [hrec2, leafOf]

theorem tree_serializer_leafOf (es : List (List Nat × List Nat × List Nat))
    (hwf : ∀ e ∈ es, wfTreeEnt e) :
    tree_serializer (es.map leafOf) = some (rawTreeBytes es) := by
  induction es with
  | nil => rfl
  | cons e t ih =>
    obtain ⟨m, p, h⟩ := e
    obtain ⟨hm, hm32, hp0, hh, hb⟩ := hwf _ (List.mem_cons_self _ _)
    have hone : treeSerializeOne (leafOf (m, p, h)) = some (rawEntryBytes m p h) := by
      have hhex : pyIntHex (pyhex (fromBytesBE h)) = some (fromBytesBE h) :=
        pyIntHex_pyhex _
      have hlt : fromBytesBE h < 256 ^ 20 := by
        have := fromBytesBE_lt h hb
        rwa [hh] at this
      have hback : toBytesBE 20 (fromBytesBE h) = h := by
        have := toBytesBE_fromBytesBE h hb
        rwa [hh] at this
      simp only [treeSerializeOne, leafOf, hhex, if_pos hlt, hback]
      rfl
    have hrest := ih (fun e he => hwf e (List.mem_cons_of_mem _ he))
    simp only [List.map_cons, tree_serializer, hone, hrest, rawTreeBytes]

/-- C10: the tree codec round trip.  For every well-formed tree payload
(the concatenation of entries `mode SP name NUL rawhash`), parsing yields
one leaf per entry — mode and name verbatim, the hash as the hex string
`hex(int.from_bytes(..))[2:]` — and serializing those leaves reproduces
the payload byte for byte, because `int(sha, 16).to_bytes(20, "big")`
re-pads the leading zero bytes the hex conversion dropped; in particular
`tree_serializer (tree_parse x) = x`. -/
theorem c10_tree_roundtrip (es : List (List Nat × List Nat × List Nat))
    (hwf : ∀ e ∈ es, wfTreeEnt e) :
    tree_parse (rawTreeBytes es) = some (es.map leafOf)
    ∧ tree_serializer (es.map leafOf) = some (rawTreeBytes es)
    ∧ (tree_parse (rawTreeBytes es)).bind tree_serializer = some (rawTreeBytes es) := by
  have hp : tree_parse (rawTreeBytes es) = some (es.map leafOf) := by
    have h := treeParseGo_at es [] ((rawTreeBytes es).length + 1) hwf
      (by have := rawTreeBytes_length_ge es; omega)
    simpa [tree_parse] using h
  have hs := tree_serializer_leafOf es hwf
  exact ⟨hp, hs, by rw [hp]; simpa using hs⟩

/-- C10 witness: a one-entry tree whose raw hash starts with a zero byte
round-trips byte for byte. -/
theorem c10_tree_roundtrip_witness :
    (∀ e ∈ c10entries, wfTreeEnt e)
    ∧ (tree_parse (rawTreeBytes c10entries)).bind tree_serializer
        = some (rawTreeBytes c10entries) :=
  ⟨by decide, (c10_tree_roundtrip c10entries (by decide)).2.2⟩

end Wyag

